import Mathlib

/-!
Verification of `ZIP_Navigator` (`src/utils_zip/zip_util.py`, class `ZipInspector`).

The development shallowly embeds the Python source:
* Python `str`/`bytes` text is a `List Char` (`PyStr`); byte payloads of HTTP
  fetches are `List Nat`.
* `fetch_bytes` is embedded over an explicit transport response; the network,
  the `zipfile` decoder and the HTTP `HEAD` metadata probe are oracles passed
  as explicit function arguments.
* `locate_central_directory` and `inspect` are embedded as pure functions that
  additionally return the trace of byte ranges fetched and of the byte strings
  handed to the archive decoder.
* `generate_report_parallel`, `combine_reports` and `clean_up_reports` are
  embedded over an explicit directory, a list of (file name, file content)
  pairs.  Thread scheduling in `generate_report_parallel` is immaterial: each
  worker writes a distinct file, and the resulting directory contents are the
  same for every schedule.
-/

namespace ZipNavigator

/-- Python `str`/`bytes` text is modelled as a list of characters. -/
abbrev PyStr := List Char

/-- Python `str.split(sep)` for a single-character separator `sep`:
splits at every occurrence, keeping empty pieces (CPython semantics). -/
def splitC (sep : Char) : PyStr → List PyStr
  | [] => [[]]
  | c :: rest =>
    if c = sep then [] :: splitC sep rest
    else (c :: (splitC sep rest).headD []) :: (splitC sep rest).tail

/-- Python `str.split(": ")` (as used on report lines): splits at every
non-overlapping occurrence of the two-character separator `": "`, scanning
left to right. -/
def splitCS : PyStr → List PyStr
  | [] => [[]]
  | [c] => [[c]]
  | c1 :: c2 :: rest =>
    if c1 = ':' ∧ c2 = ' ' then [] :: splitCS rest
    else (c1 :: (splitCS (c2 :: rest)).headD []) :: (splitCS (c2 :: rest)).tail

/-- One decimal digit as a character. -/
def digitChar : Nat → Char
  | 0 => '0' | 1 => '1' | 2 => '2' | 3 => '3' | 4 => '4'
  | 5 => '5' | 6 => '6' | 7 => '7' | 8 => '8' | _ => '9'

/-- Fuelled decimal rendering of a natural number (fuel `n + 1` always suffices). -/
def natToCharsF : Nat → Nat → PyStr
  | 0, _ => []
  | fuel + 1, n =>
    if n < 10 then [digitChar n]
    else natToCharsF fuel (n / 10) ++ [digitChar (n % 10)]

/-- Python `str(n)` / f-string rendering of a non-negative integer. -/
def natToChars (n : Nat) : PyStr := natToCharsF (n + 1) n

/-- Decimal digit test (`'0'` to `'9'`). -/
def isDigitC (c : Char) : Bool := 48 ≤ c.toNat && c.toNat ≤ 57

/-- Numeric value of a digit character. -/
def digitVal (c : Char) : Nat := c.toNat - 48

/-- Python `int(s)` restricted to the plain-decimal strings this program feeds
it (the numeric tokens of shard file names); on anything else the source
raises, modelled as `none`. -/
def parseNatL (s : PyStr) : Option Nat :=
  if s ≠ [] ∧ s.all isDigitC then
    some (s.foldl (fun a c => a * 10 + digitVal c) 0)
  else none

/-- The characters Python `str.strip()` removes. -/
def pyIsSpace (c : Char) : Bool :=
  c = ' ' || c = '\t' || c = '\n' || c = '\r' || c = '\x0b' || c = '\x0c'

/-- Python `str.strip()`. -/
def stripL (s : PyStr) : PyStr :=
  ((s.dropWhile pyIsSpace).reverse.dropWhile pyIsSpace).reverse

/-- Iterating a just-written text file line by line (each produced line without
its trailing newline), as `for line in chunk` does.  A trailing `'\n'` in the
content does not yield an extra empty line. -/
def fileLines (c : PyStr) : List PyStr :=
  let p := splitC '\n' c
  if p.getLast? = some [] then p.dropLast else p

/-! ### Report sharding, merging and cleanup
(`generate_report_parallel`, `combine_reports`, `clean_up_reports`) -/

/-- An archive entry list: the insertion-ordered `{name → size}` mapping
`self.file_sizes`.  Python dict keys are unique, so the pair list carries the
same information, and `keys = list(self.file_sizes.keys())` is the list of
first components with `self.file_sizes[name]` the paired second component. -/
abbrev EntryList := List (PyStr × Nat)

/-- The rendered size field `f"{size} bytes"` of a report line. -/
def sizeBytesStr (n : Nat) : PyStr := natToChars n ++ " bytes".data

/-- One report line `f"{file_name}: {size} bytes"` (without the newline). -/
def reportLine (p : PyStr × Nat) : PyStr := p.1 ++ ':' :: ' ' :: sizeBytesStr p.2

/-- Chunk boundaries `(i, min(i + chunk_size, len(keys)))` for
`i in range(0, len(keys), chunk_size)`, with `chunk_size = 1000` hardcoded in
the source; `range(0, n, 1000)` has `(n + 999) / 1000` elements. -/
def chunkBounds (n : Nat) : List (Nat × Nat) :=
  (List.range ((n + 999) / 1000)).map (fun i => (1000 * i, min (1000 * i + 1000) n))

/-- Python slice `keys[start:end]` for `0 ≤ start ≤ end`. -/
def sliceOf (l : EntryList) (b : Nat × Nat) : EntryList := (l.drop b.1).take (b.2 - b.1)

/-- Shard file name `f"report_{start}-{end}.{output_format}"`. -/
def shardFileName (b : Nat × Nat) (fmt : PyStr) : PyStr :=
  "report_".data ++ natToChars b.1 ++ '-' :: natToChars b.2 ++ '.' :: fmt

/-- Content written by `write_chunk(start, end)`: one `name: size bytes` line
per entry of the slice, each followed by a newline. -/
def chunkContent (es : EntryList) : PyStr :=
  (es.map (fun p => reportLine p ++ ['\n'])).flatten

/-- Embedding of `generate_report_parallel`: the shard files (name, content) present in the
output directory after every worker of the pool has completed.  Each worker
writes its own distinct file, so the directory contents are independent of the
thread schedule. -/
def generateReportParallel (entries : EntryList) (fmt : PyStr) : List (PyStr × PyStr) :=
  (chunkBounds entries.length).map
    (fun b => (shardFileName b fmt, chunkContent (sliceOf entries b)))

/-- The shard naming convention test shared by `combine_reports` (line 200) and
`clean_up_reports` (line 184):
`f.startswith("report_") and f.endswith(f".{format}")`. -/
def isShardFile (name fmt : PyStr) : Bool :=
  "report_".data.isPrefixOf name && ('.' :: fmt).isSuffixOf name

/-- Sort key `int(x.split("_")[1].split("-")[0])` of `combine_reports`.  The
output directory used by the source (`reports`) contains no underscore, so
splitting the joined path and splitting the bare file name agree.  Python
raises on a non-numeric token; the merge only sorts names matching the shard
convention, where the token is numeric, so the embedding's default is never
reached there. -/
def sortKeyL (s : PyStr) : Nat :=
  (parseNatL ((splitC '-' ((splitC '_' s).getD 1 [])).headD [])).getD 0

/-- Outcome of one line of `combine_reports`' inner loop. -/
inductive LineStep
  | skip
  | row (name size : PyStr)
  | err
  deriving DecidableEq

/-- Embedding of `if ": " in line: file_name, size = line.split(": ")`: a line without the
separator is skipped; exactly one separator yields a row (with `strip()`
applied to both parts); two or more separators make the tuple unpacking raise
`ValueError`. -/
def lineStep (l : PyStr) : LineStep :=
  match splitCS l with
  | [_] => .skip
  | [a, b] => .row (stripL a) (stripL b)
  | _ => .err

/-- Process the lines of one shard file: the rows written, whether the tuple
unpacking raised (aborting the merge), and the next serial number. -/
def combineLines (serial : Nat) : List PyStr → List (Nat × PyStr × PyStr) × Bool × Nat
  | [] => ([], false, serial)
  | l :: ls =>
    match lineStep l with
    | .skip => combineLines serial ls
    | .row n s =>
      let r := combineLines (serial + 1) ls
      ((serial, n, s) :: r.1, r.2)
    | .err => ([], true, serial)

/-- Process the shard files in order; a raise inside one file stops the whole
merge, because the `try` of `combine_reports` wraps the entire file loop (the
exception is printed, not re-raised, and the rows written so far remain in the
combined file). -/
def combineFiles (serial : Nat) : List (List PyStr) → List (Nat × PyStr × PyStr) × Bool
  | [] => ([], false)
  | f :: fs =>
    let r := combineLines serial f
    if r.2.1 then (r.1, true)
    else
      let rest := combineFiles r.2.2 fs
      (r.1 ++ rest.1, rest.2)

/-- The `report_files` list of `combine_reports`: the directory entries matching the
shard naming convention, sorted by the boundary index encoded in the name;
Python's `sorted` is the unique stable ascending sort, modelled by
`List.insertionSort`. -/
def sortedShardFiles (files : List (PyStr × PyStr)) (fmt : PyStr) :
    List (PyStr × PyStr) :=
  List.insertionSort (fun a b => sortKeyL a.1 ≤ sortKeyL b.1)
    (files.filter (fun f => isShardFile f.1 fmt))

/-- Embedding of `combine_reports`: the data rows of the combined report (the constant
header row is not modelled) and whether the merge aborted partway. -/
def combineReportsRun (files : List (PyStr × PyStr)) (fmt : PyStr) :
    List (Nat × PyStr × PyStr) × Bool :=
  combineFiles 1 ((sortedShardFiles files fmt).map (fun f => fileLines f.2))

/-- The file reading order of `combine_reports` (names only). -/
def mergeOrder (files : List (PyStr × PyStr)) (fmt : PyStr) : List PyStr :=
  (sortedShardFiles files fmt).map (fun f => f.1)

/-- The row, if any, that one line contributes to the combined report. -/
def rowOf (l : PyStr) : Option (PyStr × PyStr) :=
  match lineStep l with
  | .row n s => some (n, s)
  | _ => none

/-- An entry name round-trips through its report line unscathed: it carries no
surrounding whitespace (`strip()` leaves it alone), no newline or carriage
return (the line stays one physical line when written and read back), and no
`": "` substring (`split(": ")` cuts the line only at the separator the writer
inserted). -/
def cleanEntry (p : PyStr × Nat) : Prop :=
  stripL p.1 = p.1 ∧ '\n' ∉ p.1 ∧ '\r' ∉ p.1 ∧ splitCS p.1 = [p.1]

instance (p : PyStr × Nat) : Decidable (cleanEntry p) := by
  unfold cleanEntry
  infer_instance

/-- Embedding of `clean_up_reports`: removes every file in the directory matching the shard
naming convention for the given format, leaving the rest untouched. -/
def cleanUpReports (dir : List PyStr) (fmt : PyStr) : List PyStr :=
  dir.filter (fun f => !(isShardFile f fmt))

/-- Rows numbered consecutively starting at `k`. -/
def numberFrom (k : Nat) : List (PyStr × PyStr) → List (Nat × PyStr × PyStr)
  | [] => []
  | r :: rs => (k, r.1, r.2) :: numberFrom (k + 1) rs

/-- The combined report predicted for an entry list: serial numbers `1..N` over
the rendered rows in entry order. -/
def expectedReport (entries : EntryList) : List (Nat × PyStr × PyStr) :=
  numberFrom 1 (entries.map (fun p => (p.1, sizeBytesStr p.2)))

/-! ### Range fetcher, central directory locator, inspect
(`fetch_bytes`, `locate_central_directory`, `inspect`) -/

/-- Raw bytes of a fetched payload. -/
abbrev Bytes := List Nat

/-- A transport failure: the non-(206|200) status raise of `fetch_bytes`, or a
lower-level `requests` exception. -/
inductive TransportErr
  | badStatus (code : Nat)
  | netFail
  deriving DecidableEq

/-- The errors `ZipInspector` raises (all are `Exception`s with distinct
messages in the source; they are modelled as distinct constructors). -/
inductive InspErr
  | metadataFailed (code : Nat)
  | transport (e : TransportErr)
  | invalidFormat
  | cdNotFound
  | processFailed
  deriving DecidableEq

instance {ε α : Type} [DecidableEq ε] [DecidableEq α] : DecidableEq (Except ε α) := fun x y =>
  match x, y with
  | .ok a, .ok b =>
    if h : a = b then .isTrue (by rw [h]) else .isFalse (by intro hh; cases hh; exact h rfl)
  | .error a, .error b =>
    if h : a = b then .isTrue (by rw [h]) else .isFalse (by intro hh; cases hh; exact h rfl)
  | .ok _, .error _ => .isFalse (by intro hh; cases hh)
  | .error _, .ok _ => .isFalse (by intro hh; cases hh)

/-- The transport's answer to one ranged GET. -/
structure HttpResponse where
  status : Nat
  body : Bytes
  deriving DecidableEq

/-- Embedding of `fetch_bytes` on a given transport response: statuses 206 (partial) and
200 (full) return the streamed payload as is — its length is never compared
with the size of the requested range (the `Content-Length` header drives only
the progress bar); any other status raises. -/
def fetchBytesResp (resp : HttpResponse) : Except TransportErr Bytes :=
  if resp.status = 206 ∨ resp.status = 200 then .ok resp.body
  else .error (.badStatus resp.status)

/-- Embedding of `fetch_bytes` against a transport oracle mapping each requested inclusive
range (the string `f"{start}-{end}"`) to a response. -/
def fetchBytesVia (transport : Int → Int → HttpResponse) (s e : Int) :
    Except TransportErr Bytes :=
  fetchBytesResp (transport s e)

/-- Probe window start `max(self.content_length - step * attempt, 0)` for
attempt number `k ≥ 1`. -/
def probeStart (cl step k : Nat) : Int := max ((cl : Int) - (step : Int) * (k : Int)) 0

/-- Probe window end `self.content_length - 1`. -/
def probeEnd (cl : Nat) : Int := (cl : Int) - 1

/-- Result of a locate run: the returned value or raised error, the byte
ranges fetched (one per attempt, in order), and the byte strings handed to the
`ZipFile` decoder (one per attempt whose fetch did not raise). -/
structure LocateOut where
  res : Except InspErr Bytes
  fetches : List (Int × Int)
  decoded : List Bytes
  deriving DecidableEq

/-- The loop body of `locate_central_directory`, from attempt index `a`
(Python's `attempt`, so attempt number `a + 1`) with `fuel` iterations left.
`fetch` is the range fetcher; `dec` is the `ZipFile` decode oracle applied to
the fetched bytes alone (`ZipFile(BytesIO(central_dir_bytes))`, line 62): on
success the fetched bytes are returned immediately; `BadZipFile` and every
other exception — including a raise out of `fetch_bytes` — are caught inside
the loop and lead to the next, larger attempt. -/
def locateGo (cl step : Nat) (fetch : Int → Int → Except TransportErr Bytes)
    (dec : Bytes → Bool) : Nat → Nat → LocateOut
  | _, 0 => ⟨.error .cdNotFound, [], []⟩
  | a, fuel + 1 =>
    let s := probeStart cl step (a + 1)
    let e := probeEnd cl
    match fetch s e with
    | .error _ =>
      let r := locateGo cl step fetch dec (a + 1) fuel
      ⟨r.res, (s, e) :: r.fetches, r.decoded⟩
    | .ok b =>
      if dec b then ⟨.ok b, [(s, e)], [b]⟩
      else
        let r := locateGo cl step fetch dec (a + 1) fuel
        ⟨r.res, (s, e) :: r.fetches, b :: r.decoded⟩

/-- Embedding of `locate_central_directory(step, max_attempts)`. -/
def locateRun (cl step maxAttempts : Nat) (fetch : Int → Int → Except TransportErr Bytes)
    (dec : Bytes → Bool) : LocateOut :=
  locateGo cl step fetch dec 0 maxAttempts

/-- Attempt number `k` of a locate run fails: its fetch raises, or the decoder
rejects the fetched bytes. -/
def attemptFails (cl step : Nat) (fetch : Int → Int → Except TransportErr Bytes)
    (dec : Bytes → Bool) (k : Nat) : Prop :=
  (∃ t, fetch (probeStart cl step k) (probeEnd cl) = .error t) ∨
  (∃ b, fetch (probeStart cl step k) (probeEnd cl) = .ok b ∧ dec b = false)

/-- Result of an inspect run: the decoded entry list or raised error, plus the
trace of all byte ranges fetched and of the byte strings the locate loop
handed to the decoder. -/
structure InspectOut where
  res : Except InspErr EntryList
  fetches : List (Int × Int)
  locDecoded : List Bytes
  deriving DecidableEq

/-- Embedding of `inspect`: HEAD for `content_length` (status ≠ 200 raises), fetch bytes
`0-8191`, require the `PK` signature (bytes `80, 75`), then locate the central
directory with the default `step = 1048576`, `max_attempts = 20`, and finally
decode `initial_bytes + central_dir_bytes` into the entry list.  The decode
oracle `entriesOf` models `ZipFile`: the locate loop only uses its
success/failure, `inspect`'s final decode uses its entries. -/
def inspectRun (headStatus cl : Nat) (fetch : Int → Int → Except TransportErr Bytes)
    (entriesOf : Bytes → Option EntryList) : InspectOut :=
  if headStatus ≠ 200 then ⟨.error (.metadataFailed headStatus), [], []⟩
  else
    match fetch 0 8191 with
    | .error t => ⟨.error (.transport t), [(0, 8191)], []⟩
    | .ok initialBytes =>
      if [80, 75].isPrefixOf initialBytes then
        let r := locateRun cl 1048576 20 fetch (fun b => (entriesOf b).isSome)
        match r.res with
        | .error e => ⟨.error e, (0, 8191) :: r.fetches, r.decoded⟩
        | .ok central =>
          match entriesOf (initialBytes ++ central) with
          | some es => ⟨.ok es, (0, 8191) :: r.fetches, r.decoded⟩
          | none => ⟨.error .processFailed, (0, 8191) :: r.fetches, r.decoded⟩
      else ⟨.error .invalidFormat, [(0, 8191)], []⟩

/-! ### Lemmas about the string model -/

theorem splitC_ne_nil (sep : Char) (s : PyStr) : splitC sep s ≠ [] := by
  cases s with
  | nil => simp [splitC]
  | cons c rest =>
    by_cases h : c = sep <;> simp [splitC, h]

theorem splitC_of_not_mem {sep : Char} {s : PyStr} (h : sep ∉ s) :
    splitC sep s = [s] := by
  induction s with
  | nil => rfl
  | cons c rest ih =>
    have hc : ¬ c = sep := fun hcs => h (hcs ▸ List.mem_cons_self c rest)
    have hr : sep ∉ rest := fun hm => h (List.mem_cons_of_mem _ hm)
    simp [splitC, hc, ih hr]

theorem splitC_append {sep : Char} {a : PyStr} (b : PyStr) (h : sep ∉ a) :
    splitC sep (a ++ sep :: b) = a :: splitC sep b := by
  induction a with
  | nil => simp [splitC]
  | cons x a' ih =>
    have hx : ¬ x = sep := fun hxs => h (hxs ▸ List.mem_cons_self x a')
    have ha' : sep ∉ a' := fun hm => h (List.mem_cons_of_mem _ hm)
    simp [splitC, hx, ih ha']

theorem splitCS_colon_space (rest : PyStr) :
    splitCS (':' :: ' ' :: rest) = [] :: splitCS rest := by
  simp [splitCS]

theorem splitCS_cons_cons_of_ne {c1 c2 : Char} (rest : PyStr)
    (h : ¬ (c1 = ':' ∧ c2 = ' ')) :
    splitCS (c1 :: c2 :: rest)
      = (c1 :: (splitCS (c2 :: rest)).headD []) :: (splitCS (c2 :: rest)).tail := by
  simp [splitCS, h]

theorem splitCS_ne_nil (s : PyStr) : splitCS s ≠ [] := by
  match s with
  | [] => simp [splitCS]
  | [c] => simp [splitCS]
  | c1 :: c2 :: rest =>
    by_cases h : c1 = ':' ∧ c2 = ' ' <;> simp [splitCS, h]

theorem splitCS_of_not_mem {s : PyStr} (h : ':' ∉ s) : splitCS s = [s] := by
  induction s using splitCS.induct with
  | case1 => rfl
  | case2 c => rfl
  | case3 c1 c2 rest hcond ih =>
    exact absurd rfl (fun (hc : (':' : Char) = ':') =>
      h (hcond.1 ▸ List.mem_cons_self c1 (c2 :: rest)))
  | case4 c1 c2 rest hcond ih =>
    have h2 : ':' ∉ c2 :: rest := fun hm => h (List.mem_cons_of_mem _ hm)
    simp [splitCS, hcond, ih h2]

theorem splitCS_append {a : PyStr} (b : PyStr) (h : splitCS a = [a]) :
    splitCS (a ++ ':' :: ' ' :: b) = a :: splitCS b := by
  induction a using splitCS.induct with
  | case1 => simp [splitCS]
  | case2 c =>
    show splitCS (c :: ':' :: ' ' :: b) = [c] :: splitCS b
    have hcond : ¬ (c = ':' ∧ (':' : Char) = ' ') := by
      rintro ⟨-, h2⟩; exact absurd h2 (by decide)
    rw [splitCS_cons_cons_of_ne _ hcond, splitCS_colon_space]
    simp
  | case3 c1 c2 rest hcond ih =>
    obtain ⟨hc1, hc2⟩ := hcond
    subst hc1; subst hc2
    rw [splitCS_colon_space] at h
    simp at h
  | case4 c1 c2 rest hcond ih =>
    rcases hd : splitCS (c2 :: rest) with - | ⟨p, ps⟩
    · exact absurd hd (splitCS_ne_nil _)
    · rw [splitCS_cons_cons_of_ne _ hcond, hd] at h
      simp only [List.headD_cons, List.tail_cons] at h
      obtain ⟨hp, hps⟩ : p = c2 :: rest ∧ ps = [] := by simpa using h
      have hrec : splitCS (c2 :: rest) = [c2 :: rest] := by rw [hd, hp, hps]
      have ihh := ih hrec
      show splitCS (c1 :: c2 :: (rest ++ ':' :: ' ' :: b)) = _
      rw [splitCS_cons_cons_of_ne _ hcond]
      have harg : c2 :: (rest ++ ':' :: ' ' :: b) = (c2 :: rest) ++ ':' :: ' ' :: b := rfl
      rw [harg, ihh]
      simp

theorem natToCharsF_fuel {f1 f2 n : Nat} (h1 : n < f1) (h2 : n < f2) :
    natToCharsF f1 n = natToCharsF f2 n := by
  induction n using Nat.strong_induction_on generalizing f1 f2 with
  | _ n ih =>
    match f1, f2 with
    | a + 1, b + 1 =>
      by_cases hn : n < 10
      · simp [natToCharsF, hn]
      · have hdiv : n / 10 < n := Nat.div_lt_self (by omega) (by omega)
        simp only [natToCharsF, if_neg hn]
        rw [ih (n / 10) hdiv (show n / 10 < a by omega) (show n / 10 < b by omega)]

theorem natToChars_of_lt (n : Nat) (h : n < 10) : natToChars n = [digitChar n] := by
  simp [natToChars, natToCharsF, h]

theorem natToChars_step (n : Nat) (h : ¬ n < 10) :
    natToChars n = natToChars (n / 10) ++ [digitChar (n % 10)] := by
  have hdiv : n / 10 < n := Nat.div_lt_self (by omega) (by omega)
  have h1 : natToChars n = natToCharsF n (n / 10) ++ [digitChar (n % 10)] := by
    rw [natToChars,
      show natToCharsF (n + 1) n
          = if n < 10 then [digitChar n] else natToCharsF n (n / 10) ++ [digitChar (n % 10)]
        from rfl,
      if_neg h]
  rw [h1, natToCharsF_fuel (show n / 10 < n from hdiv) (Nat.lt_succ_self _)]
  rfl

theorem natToChars_ne_nil (n : Nat) : natToChars n ≠ [] := by
  by_cases h : n < 10
  · rw [natToChars_of_lt n h]; simp
  · rw [natToChars_step n h]; simp

theorem isDigitC_digitChar {n : Nat} (h : n < 10) : isDigitC (digitChar n) = true := by
  interval_cases n <;> decide

theorem digitVal_digitChar {n : Nat} (h : n < 10) : digitVal (digitChar n) = n := by
  interval_cases n <;> decide

theorem mem_natToChars_digit {n : Nat} {c : Char} (h : c ∈ natToChars n) :
    isDigitC c = true := by
  induction n using Nat.strong_induction_on with
  | _ n ih =>
    by_cases hn : n < 10
    · rw [natToChars_of_lt n hn] at h
      simp at h
      exact h ▸ isDigitC_digitChar hn
    · rw [natToChars_step n hn] at h
      rcases List.mem_append.mp h with h1 | h2
      · exact ih (n / 10) (Nat.div_lt_self (by omega) (by omega)) h1
      · simp at h2
        exact h2 ▸ isDigitC_digitChar (Nat.mod_lt n (by omega))

theorem foldVal_natToChars (n : Nat) :
    (natToChars n).foldl (fun a c => a * 10 + digitVal c) 0 = n := by
  induction n using Nat.strong_induction_on with
  | _ n ih =>
    by_cases hn : n < 10
    · rw [natToChars_of_lt n hn]
      simp [digitVal_digitChar hn]
    · rw [natToChars_step n hn, List.foldl_append]
      rw [ih (n / 10) (Nat.div_lt_self (by omega) (by omega))]
      simp [digitVal_digitChar (Nat.mod_lt n (by omega))]
      omega

theorem parseNatL_natToChars (n : Nat) : parseNatL (natToChars n) = some n := by
  have hall : (natToChars n).all isDigitC = true :=
    List.all_eq_true.mpr fun c hc => mem_natToChars_digit hc
  rw [parseNatL, if_pos ⟨natToChars_ne_nil n, hall⟩, foldVal_natToChars]

/-- Digit characters are none of the structural characters of report files. -/
theorem digit_not_special {c : Char} (h : isDigitC c = true) :
    c ≠ '_' ∧ c ≠ '-' ∧ c ≠ ':' ∧ c ≠ '\n' ∧ c ≠ '\r' ∧ c ≠ '.' ∧ pyIsSpace c = false := by
  refine ⟨?_, ?_, ?_, ?_, ?_, ?_, ?_⟩
  · rintro rfl; exact absurd h (by decide)
  · rintro rfl; exact absurd h (by decide)
  · rintro rfl; exact absurd h (by decide)
  · rintro rfl; exact absurd h (by decide)
  · rintro rfl; exact absurd h (by decide)
  · rintro rfl; exact absurd h (by decide)
  · by_contra hsp
    rw [Bool.not_eq_false] at hsp
    rcases (by simpa [pyIsSpace, Bool.or_eq_true, decide_eq_true_eq] using hsp :
        ((((c = ' ' ∨ c = '\t') ∨ c = '\n') ∨ c = '\r') ∨ c = '\x0b') ∨ c = '\x0c') with
      ((((rfl | rfl) | rfl) | rfl) | rfl) | rfl <;> exact absurd h (by decide)

theorem stripL_eq_self {s : PyStr}
    (hh : ∀ c, s.head? = some c → pyIsSpace c = false)
    (hl : ∀ c, s.getLast? = some c → pyIsSpace c = false) :
    stripL s = s := by
  rcases s with - | ⟨x, xs⟩
  · rfl
  · have hx : pyIsSpace x = false := hh x rfl
    rw [stripL, List.dropWhile_cons_of_neg (by simp [hx])]
    rcases hlast : (x :: xs).getLast? with - | c
    · simp at hlast
    · have hc : pyIsSpace c = false := hl c hlast
      have hrev : (x :: xs).reverse.head? = some c := by
        rw [List.head?_reverse]; exact hlast
      rcases hr : (x :: xs).reverse with - | ⟨y, ys⟩
      · simp at hr
      · rw [hr] at hrev
        simp at hrev
        rw [List.dropWhile_cons_of_neg (by simp [hrev ▸ hc])]
        rw [← hr, List.reverse_reverse]

theorem splitC_flatten_newlines {ls : List PyStr} (h : ∀ l ∈ ls, '\n' ∉ l) :
    splitC '\n' ((ls.map (fun l => l ++ ['\n'])).flatten) = ls ++ [[]] := by
  induction ls with
  | nil => rfl
  | cons l ls' ih =>
    have hl : '\n' ∉ l := h l (List.mem_cons_self _ _)
    have hrest : ∀ l' ∈ ls', '\n' ∉ l' := fun l' hm => h l' (List.mem_cons_of_mem _ hm)
    have harg : ((l :: ls').map (fun l => l ++ ['\n'])).flatten
        = l ++ '\n' :: (ls'.map (fun l => l ++ ['\n'])).flatten := by
      rw [List.map_cons, List.flatten_cons, List.append_assoc]
      rfl
    rw [harg, splitC_append _ hl, ih hrest, List.cons_append]

/-- Reading back a shard file: the written lines come back exactly, provided no
line contains a newline of its own. -/
theorem fileLines_flatten {ls : List PyStr} (h : ∀ l ∈ ls, '\n' ∉ l) :
    fileLines ((ls.map (fun l => l ++ ['\n'])).flatten) = ls := by
  rw [fileLines, splitC_flatten_newlines h]
  simp

/-! ### Lemmas about the locate loop -/

section LocateLemmas

variable (cl step : Nat) (fetch : Int → Int → Except TransportErr Bytes) (dec : Bytes → Bool)

theorem locateGo_fetches_eq :
    ∀ (fuel a : Nat),
      (locateGo cl step fetch dec a fuel).fetches
        = (List.range (locateGo cl step fetch dec a fuel).fetches.length).map
            (fun i => (probeStart cl step (a + i + 1), probeEnd cl)) := by
  intro fuel
  induction fuel with
  | zero => intro a; rfl
  | succ f ih =>
    intro a
    have hshift : ∀ n : Nat,
        (probeStart cl step (a + 1), probeEnd cl)
            :: (List.range n).map (fun i => (probeStart cl step (a + 1 + i + 1), probeEnd cl))
          = (List.range (n + 1)).map (fun i => (probeStart cl step (a + i + 1), probeEnd cl)) := by
      intro n
      rw [List.range_succ_eq_map, List.map_cons, List.map_map]
      refine congrArg₂ List.cons ?_ ?_
      · show (probeStart cl step (a + 1), probeEnd cl)
            = (probeStart cl step (a + 0 + 1), probeEnd cl)
        rfl
      · refine List.map_congr_left fun i _ => ?_
        show (probeStart cl step (a + 1 + i + 1), probeEnd cl)
            = (probeStart cl step (a + (i + 1) + 1), probeEnd cl)
        have harith : a + 1 + i + 1 = a + (i + 1) + 1 := by omega
        rw [harith]
    cases hf : fetch (probeStart cl step (a + 1)) (probeEnd cl) with
    | error t =>
      have hg : (locateGo cl step fetch dec a (f + 1)).fetches
          = (probeStart cl step (a + 1), probeEnd cl)
            :: (locateGo cl step fetch dec (a + 1) f).fetches := by
        simp [locateGo, hf]
      rw [hg, ih (a + 1)]
      rw [List.length_cons, List.length_map, List.length_range]
      exact hshift _
    | ok b =>
      by_cases hd : dec b = true
      · have hg : (locateGo cl step fetch dec a (f + 1)).fetches
            = [(probeStart cl step (a + 1), probeEnd cl)] := by
          simp [locateGo, hf, hd]
        rw [hg]
        rfl
      · have hd' : dec b = false := by simpa using hd
        have hg : (locateGo cl step fetch dec a (f + 1)).fetches
            = (probeStart cl step (a + 1), probeEnd cl)
              :: (locateGo cl step fetch dec (a + 1) f).fetches := by
          simp [locateGo, hf, hd']
        rw [hg, ih (a + 1)]
        rw [List.length_cons, List.length_map, List.length_range]
        exact hshift _

theorem locateGo_fetches_len_le :
    ∀ (fuel a : Nat), (locateGo cl step fetch dec a fuel).fetches.length ≤ fuel := by
  intro fuel
  induction fuel with
  | zero => intro a; simp [locateGo]
  | succ f ih =>
    intro a
    cases hf : fetch (probeStart cl step (a + 1)) (probeEnd cl) with
    | error t =>
      have := ih (a + 1)
      simp [locateGo, hf]
      omega
    | ok b =>
      by_cases hd : dec b = true
      · simp [locateGo, hf, hd]
      · have hd' : dec b = false := by simpa using hd
        have := ih (a + 1)
        simp [locateGo, hf, hd']
        omega

theorem locateGo_res_spec :
    ∀ (fuel a : Nat),
      (∃ b, (locateGo cl step fetch dec a fuel).res = .ok b ∧ dec b = true) ∨
      ((locateGo cl step fetch dec a fuel).res = .error .cdNotFound ∧
        (locateGo cl step fetch dec a fuel).fetches.length = fuel) := by
  intro fuel
  induction fuel with
  | zero => intro a; right; exact ⟨rfl, rfl⟩
  | succ f ih =>
    intro a
    cases hf : fetch (probeStart cl step (a + 1)) (probeEnd cl) with
    | error t =>
      rcases ih (a + 1) with ⟨b, hb, hdb⟩ | ⟨he, hl⟩
      · left; exact ⟨b, by simp [locateGo, hf, hb], hdb⟩
      · right
        refine ⟨by simp [locateGo, hf, he], ?_⟩
        simp [locateGo, hf, hl]
    | ok b =>
      by_cases hd : dec b = true
      · left; exact ⟨b, by simp [locateGo, hf, hd], hd⟩
      · have hd' : dec b = false := by simpa using hd
        rcases ih (a + 1) with ⟨b', hb', hdb'⟩ | ⟨he, hl⟩
        · left; exact ⟨b', by simp [locateGo, hf, hd', hb'], hdb'⟩
        · right
          refine ⟨by simp [locateGo, hf, hd', he], ?_⟩
          simp [locateGo, hf, hd', hl]

theorem locateGo_decoded_eq :
    ∀ (fuel a : Nat),
      (locateGo cl step fetch dec a fuel).decoded
        = (locateGo cl step fetch dec a fuel).fetches.filterMap
            (fun w => (fetch w.1 w.2).toOption) := by
  intro fuel
  induction fuel with
  | zero => intro a; rfl
  | succ f ih =>
    intro a
    cases hf : fetch (probeStart cl step (a + 1)) (probeEnd cl) with
    | error t =>
      simp [locateGo, hf, List.filterMap_cons, Except.toOption, ih (a + 1)]
    | ok b =>
      by_cases hd : dec b = true
      · simp [locateGo, hf, hd, List.filterMap_cons, Except.toOption]
      · have hd' : dec b = false := by simpa using hd
        simp [locateGo, hf, hd', List.filterMap_cons, Except.toOption, ih (a + 1)]

theorem locateGo_first_success :
    ∀ (k fuel a : Nat) (b : Bytes), 1 ≤ k → k ≤ fuel →
      (∀ j, 1 ≤ j → j < k → attemptFails cl step fetch dec (a + j)) →
      fetch (probeStart cl step (a + k)) (probeEnd cl) = .ok b → dec b = true →
      (locateGo cl step fetch dec a fuel).res = .ok b ∧
      (locateGo cl step fetch dec a fuel).fetches.length = k := by
  intro k
  induction k with
  | zero => intro fuel a b h1; omega
  | succ k ih =>
    intro fuel a b h1 hk hfail hok hdec
    match fuel, hk with
    | f + 1, hk =>
      by_cases hk0 : k = 0
      · subst hk0
        refine ⟨by simp [locateGo, hok, hdec], by simp [locateGo, hok, hdec]⟩
      · have hf1 : attemptFails cl step fetch dec (a + 1) := hfail 1 le_rfl (by omega)
        have hrec : (locateGo cl step fetch dec a (f + 1)).res
              = (locateGo cl step fetch dec (a + 1) f).res ∧
            (locateGo cl step fetch dec a (f + 1)).fetches.length
              = (locateGo cl step fetch dec (a + 1) f).fetches.length + 1 := by
          rcases hf1 with ⟨t, ht⟩ | ⟨b', hb', hdb'⟩
          · exact ⟨by simp [locateGo, ht], by simp [locateGo, ht]⟩
          · exact ⟨by simp [locateGo, hb', hdb'], by simp [locateGo, hb', hdb']⟩
        have ihh := ih f (a + 1) b (by omega) (by omega)
          (fun j hj1 hjk => by
            have hj := hfail (j + 1) (by omega) (by omega)
            have harr : a + (j + 1) = a + 1 + j := by omega
            rwa [harr] at hj)
          (by rwa [show a + 1 + k = a + (k + 1) from by omega]) hdec
        exact ⟨hrec.1 ▸ ihh.1, by rw [hrec.2, ihh.2]⟩

end LocateLemmas

theorem probeStart_nonneg (cl step k : Nat) : 0 ≤ probeStart cl step k :=
  le_max_right _ _

theorem probeStart_anti (cl step : Nat) {i j : Nat} (h : i ≤ j) :
    probeStart cl step j ≤ probeStart cl step i := by
  unfold probeStart
  refine max_le_max (sub_le_sub_left ?_ _) le_rfl
  exact mul_le_mul_of_nonneg_left (Int.ofNat_le.mpr h) (Int.natCast_nonneg step)

theorem get_of_range_map {β : Type} (L : List β) (g : Nat → β)
    (h : L = (List.range L.length).map g) (i : Nat) (hi : i < L.length) :
    L.get ⟨i, hi⟩ = g i := by
  rw [List.get_of_eq h ⟨i, hi⟩]
  simp

theorem locateRun_window (cl step maxAttempts : Nat)
    (fetch : Int → Int → Except TransportErr Bytes) (dec : Bytes → Bool) (i : Nat)
    (hi : i < (locateRun cl step maxAttempts fetch dec).fetches.length) :
    (locateRun cl step maxAttempts fetch dec).fetches.get ⟨i, hi⟩
      = (probeStart cl step (i + 1), probeEnd cl) := by
  have heq := locateGo_fetches_eq cl step fetch dec maxAttempts 0
  have h := get_of_range_map _ (fun i => (probeStart cl step (0 + i + 1), probeEnd cl)) heq i hi
  simpa using h

/-! ### Lemmas about the report pipeline -/

theorem numberFrom_length (k : Nat) (rs : List (PyStr × PyStr)) :
    (numberFrom k rs).length = rs.length := by
  induction rs generalizing k with
  | nil => rfl
  | cons r rs ih => simp [numberFrom, ih]

theorem numberFrom_append (k : Nat) (a b : List (PyStr × PyStr)) :
    numberFrom k (a ++ b) = numberFrom k a ++ numberFrom (k + a.length) b := by
  induction a generalizing k with
  | nil => simp [numberFrom]
  | cons r rs ih =>
    show (k, r.1, r.2) :: numberFrom (k + 1) (rs ++ b)
        = (k, r.1, r.2) :: (numberFrom (k + 1) rs ++ numberFrom (k + (rs.length + 1)) b)
    rw [ih (k + 1), show k + 1 + rs.length = k + (rs.length + 1) from by omega]

theorem numberFrom_map_fst (k : Nat) (rs : List (PyStr × PyStr)) :
    (numberFrom k rs).map (fun r => r.1) = List.range' k rs.length := by
  induction rs generalizing k with
  | nil => rfl
  | cons r rs ih => simp [numberFrom, ih (k + 1), List.range'_succ]

theorem sizeBytes_no_colon (n : Nat) : ':' ∉ sizeBytesStr n := by
  intro hmem
  rcases List.mem_append.mp hmem with h | h
  · exact absurd (mem_natToChars_digit h) (by decide)
  · exact absurd h (by decide)

theorem sizeBytes_no_newline (n : Nat) : '\n' ∉ sizeBytesStr n := by
  intro hmem
  rcases List.mem_append.mp hmem with h | h
  · exact absurd (mem_natToChars_digit h) (by decide)
  · exact absurd h (by decide)

theorem reportLine_no_newline {p : PyStr × Nat} (h : '\n' ∉ p.1) :
    '\n' ∉ reportLine p := by
  intro hm
  rcases List.mem_append.mp hm with h1 | h1
  · exact h h1
  · simp only [List.mem_cons] at h1
    rcases h1 with h1 | h1 | h1
    · exact absurd h1 (by decide)
    · exact absurd h1 (by decide)
    · exact sizeBytes_no_newline p.2 h1

theorem stripL_sizeBytes (n : Nat) : stripL (sizeBytesStr n) = sizeBytesStr n := by
  apply stripL_eq_self
  · intro c hc
    cases hnc : natToChars n with
    | nil => exact absurd hnc (natToChars_ne_nil n)
    | cons c0 cs =>
      rw [sizeBytesStr, hnc] at hc
      simp only [List.cons_append, List.head?_cons, Option.some.injEq] at hc
      subst hc
      have hd : isDigitC c0 = true :=
        mem_natToChars_digit (hnc ▸ List.mem_cons_self c0 cs)
      exact (digit_not_special hd).2.2.2.2.2.2
  · intro c hc
    rw [sizeBytesStr, List.getLast?_append] at hc
    have : (" bytes".data : PyStr).getLast? = some 's' := by decide
    rw [this] at hc
    simp only [Option.or_some, Option.some.injEq] at hc
    subst hc
    decide

theorem lineStep_reportLine {p : PyStr × Nat} (hp : cleanEntry p) :
    lineStep (reportLine p) = .row p.1 (sizeBytesStr p.2) := by
  obtain ⟨hstrip, hnl, hcr, hsplit⟩ := hp
  have hsz : splitCS (sizeBytesStr p.2) = [sizeBytesStr p.2] :=
    splitCS_of_not_mem (sizeBytes_no_colon p.2)
  have hline : splitCS (reportLine p) = [p.1, sizeBytesStr p.2] := by
    rw [reportLine, splitCS_append _ hsplit, hsz]
  rw [lineStep, hline]
  simp [hstrip, stripL_sizeBytes]

theorem rowOf_reportLine {p : PyStr × Nat} (hp : cleanEntry p) :
    rowOf (reportLine p) = some (p.1, sizeBytesStr p.2) := by
  rw [rowOf, lineStep_reportLine hp]

theorem fileLines_chunkContent {es : EntryList} (h : ∀ p ∈ es, cleanEntry p) :
    fileLines (chunkContent es) = es.map reportLine := by
  rw [chunkContent,
    show es.map (fun p => reportLine p ++ ['\n'])
        = (es.map reportLine).map (fun l => l ++ ['\n']) from by rw [List.map_map]; rfl]
  exact fileLines_flatten fun l hl => by
    obtain ⟨p, hp, rfl⟩ := List.mem_map.mp hl
    exact reportLine_no_newline (h p hp).2.1

theorem combineLines_clean (es : EntryList) :
    ∀ (k : Nat), (∀ p ∈ es, cleanEntry p) →
      combineLines k (es.map reportLine)
        = (numberFrom k (es.map (fun p => (p.1, sizeBytesStr p.2))), false, k + es.length) := by
  induction es with
  | nil => intro k h; rfl
  | cons p ps ih =>
    intro k h
    have hp := h p (List.mem_cons_self _ _)
    have hps := fun q hq => h q (List.mem_cons_of_mem _ hq)
    have hstep : combineLines k (reportLine p :: ps.map reportLine)
        = ((k, p.1, sizeBytesStr p.2) :: (combineLines (k + 1) (ps.map reportLine)).1,
           (combineLines (k + 1) (ps.map reportLine)).2) := by
      simp [combineLines, lineStep_reportLine hp]
    rw [List.map_cons, hstep, ih (k + 1) hps,
      show k + 1 + ps.length = k + (ps.length + 1) from by omega]
    rfl

theorem combineFiles_clean (ess : List EntryList) :
    ∀ (k : Nat), (∀ es ∈ ess, ∀ p ∈ es, cleanEntry p) →
      combineFiles k (ess.map (fun es => es.map reportLine))
        = (numberFrom k (ess.flatten.map (fun p => (p.1, sizeBytesStr p.2))), false) := by
  induction ess with
  | nil => intro k h; rfl
  | cons es ess ih =>
    intro k h
    have h1 := h es (List.mem_cons_self _ _)
    have h2 := fun e he => h e (List.mem_cons_of_mem _ he)
    rw [List.map_cons,
      show combineFiles k (es.map reportLine :: ess.map (fun es => es.map reportLine))
          = (let r := combineLines k (es.map reportLine)
             if r.2.1 then (r.1, true)
             else
               let rest := combineFiles r.2.2 (ess.map (fun es => es.map reportLine))
               (r.1 ++ rest.1, rest.2)) from rfl,
      combineLines_clean es k h1]
    simp only [ih (k + es.length) h2, List.flatten_cons, List.map_append, numberFrom_append,
      List.length_map]
    rfl

theorem chunks_flatten_aux {β : Type} :
    ∀ (m i : Nat) (l : List β), l.length ≤ 1000 * (i + m) →
      ((List.range' i m).map
        (fun j => (l.drop (1000 * j)).take (min (1000 * j + 1000) l.length - 1000 * j))).flatten
        = l.drop (1000 * i) := by
  intro m
  induction m with
  | zero =>
    intro i l hl
    simp only [List.range', List.map_nil, List.flatten_nil]
    symm
    exact List.drop_eq_nil_of_le (by omega)
  | succ m ih =>
    intro i l hl
    rw [List.range'_succ, List.map_cons, List.flatten_cons, ih (i + 1) l (by omega)]
    by_cases hcase : l.length ≤ 1000 * i + 1000
    · have hmin : min (1000 * i + 1000) l.length = l.length := by omega
      rw [hmin, List.take_of_length_le (by simp),
        List.drop_eq_nil_of_le (show l.length ≤ 1000 * (i + 1) by omega), List.append_nil]
    · have hmin : min (1000 * i + 1000) l.length - 1000 * i = 1000 := by omega
      rw [hmin, show 1000 * (i + 1) = 1000 * i + 1000 from by omega,
        show l.drop (1000 * i + 1000) = (l.drop (1000 * i)).drop 1000 from by
          rw [List.drop_drop]]
      exact List.take_append_drop 1000 (l.drop (1000 * i))

theorem chunks_flatten (l : EntryList) :
    ((chunkBounds l.length).map (fun b => sliceOf l b)).flatten = l := by
  rw [chunkBounds, List.range_eq_range', List.map_map]
  have h := chunks_flatten_aux ((l.length + 999) / 1000) 0 l (by omega)
  simpa [sliceOf, Function.comp] using h

theorem dash_not_mem_natToChars (n : Nat) : '-' ∉ natToChars n := fun h =>
  absurd (mem_natToChars_digit h) (by decide)

theorem sortKeyL_shardFileName (b : Nat × Nat) {fmt : PyStr} (hfmt : '_' ∉ fmt) :
    sortKeyL (shardFileName b fmt) = b.1 := by
  have hname : shardFileName b fmt
      = "report".data ++ '_' :: (natToChars b.1 ++ '-' :: (natToChars b.2 ++ '.' :: fmt)) := by
    rw [shardFileName, show ("report_".data : PyStr) = "report".data ++ ['_'] from by decide,
      List.append_assoc]
    rfl
  have htail : '_' ∉ natToChars b.1 ++ '-' :: (natToChars b.2 ++ '.' :: fmt) := by
    intro hm
    rcases List.mem_append.mp hm with h | h
    · exact absurd (mem_natToChars_digit h) (by decide)
    · simp only [List.mem_cons] at h
      rcases h with h | h
      · exact absurd h (by decide)
      · rcases List.mem_append.mp h with h | h
        · exact absurd (mem_natToChars_digit h) (by decide)
        · simp only [List.mem_cons] at h
          rcases h with h | h
          · exact absurd h (by decide)
          · exact hfmt h
  rw [sortKeyL, hname, splitC_append _ (by decide : '_' ∉ ("report".data : PyStr)),
    splitC_of_not_mem htail]
  simp only [List.getD_cons_succ, List.getD_cons_zero]
  rw [splitC_append _ (dash_not_mem_natToChars b.1)]
  simp only [List.headD_cons]
  rw [parseNatL_natToChars]
  rfl

theorem isPrefixOf_append_self : ∀ (l r : List Char), l.isPrefixOf (l ++ r) = true := by
  intro l r
  induction l with
  | nil => cases r <;> rfl
  | cons c cs ih => simp [List.isPrefixOf, ih]

theorem isSuffixOf_append_self (l r : List Char) : l.isSuffixOf (r ++ l) = true := by
  rw [List.isSuffixOf, List.reverse_append]
  exact isPrefixOf_append_self _ _

theorem isShardFile_shardFileName (b : Nat × Nat) (fmt : PyStr) :
    isShardFile (shardFileName b fmt) fmt = true := by
  rw [isShardFile, shardFileName, Bool.and_eq_true]
  constructor
  · exact isPrefixOf_append_self _ _
  · have heq : "report_".data ++ natToChars b.1 ++ '-' :: natToChars b.2 ++ '.' :: fmt
        = ("report_".data ++ natToChars b.1 ++ '-' :: natToChars b.2) ++ '.' :: fmt := by
      simp only [List.cons_append, List.append_assoc]
    rw [heq]
    exact isSuffixOf_append_self _ _

theorem generate_sorted (entries : EntryList) (fmt : PyStr) (hfmt : '_' ∉ fmt) :
    List.Sorted (fun a b => sortKeyL a.1 ≤ sortKeyL b.1)
      (generateReportParallel entries fmt) := by
  rw [generateReportParallel, chunkBounds, List.map_map]
  rw [List.Sorted, List.pairwise_map]
  refine (List.pairwise_lt_range _).imp fun {i j} hij => ?_
  show sortKeyL (shardFileName (1000 * i, min (1000 * i + 1000) entries.length) fmt)
      ≤ sortKeyL (shardFileName (1000 * j, min (1000 * j + 1000) entries.length) fmt)
  rw [sortKeyL_shardFileName _ hfmt, sortKeyL_shardFileName _ hfmt]
  omega

theorem sorted_eq_of_perm_nodupkeys {β : Type} (key : β → Nat) {l₁ l₂ : List β}
    (hp : l₁.Perm l₂)
    (hs₁ : l₁.Sorted (fun a b => key a ≤ key b))
    (hs₂ : l₂.Sorted (fun a b => key a ≤ key b))
    (hn : (l₁.map key).Nodup) : l₁ = l₂ := by
  haveI : IsAntisymm β (fun a b => key a < key b) :=
    ⟨fun a b h1 h2 => absurd (lt_trans h1 h2) (lt_irrefl _)⟩
  have hpair₁ : l₁.Pairwise (fun a b => key a ≠ key b) := by
    rw [List.Nodup, List.pairwise_map] at hn
    exact hn
  have hn₂ : (l₂.map key).Nodup := (hp.map key).nodup hn
  have hpair₂ : l₂.Pairwise (fun a b => key a ≠ key b) := by
    rw [List.Nodup, List.pairwise_map] at hn₂
    exact hn₂
  have hs₁' : l₁.Sorted (fun a b => key a < key b) :=
    (hs₁.and hpair₁).imp fun h => lt_of_le_of_ne h.1 h.2
  have hs₂' : l₂.Sorted (fun a b => key a < key b) :=
    (hs₂.and hpair₂).imp fun h => lt_of_le_of_ne h.1 h.2
  exact List.eq_of_perm_of_sorted hp hs₁' hs₂'

theorem numberFrom_map_snd (k : Nat) (rs : List (PyStr × PyStr)) :
    (numberFrom k rs).map (fun r => r.2) = rs := by
  induction rs generalizing k with
  | nil => rfl
  | cons r rs ih => simp [numberFrom, ih (k + 1)]

theorem combineLines_no_err (lines : List PyStr) :
    ∀ (k : Nat), (∀ l ∈ lines, (splitCS l).length ≤ 2) →
      combineLines k lines
        = (numberFrom k (lines.filterMap rowOf), false,
           k + (lines.filterMap rowOf).length) := by
  induction lines with
  | nil => intro k h; rfl
  | cons l ls ih =>
    intro k h
    have hl := h l (List.mem_cons_self _ _)
    have hls := fun x hx => h x (List.mem_cons_of_mem _ hx)
    rcases hsp : splitCS l with - | ⟨a, rest⟩
    · exact absurd hsp (splitCS_ne_nil l)
    · rcases rest with - | ⟨b, rest2⟩
      · have hstep : lineStep l = .skip := by rw [lineStep, hsp]
        have hrow : rowOf l = none := by rw [rowOf, hstep]
        simp only [combineLines, hstep, List.filterMap_cons, hrow]
        exact ih k hls
      · rcases rest2 with - | ⟨c, rest3⟩
        · have hstep : lineStep l = .row (stripL a) (stripL b) := by rw [lineStep, hsp]
          have hrow : rowOf l = some (stripL a, stripL b) := by rw [rowOf, hstep]
          have harith : k + 1 + (ls.filterMap rowOf).length
              = k + ((ls.filterMap rowOf).length + 1) := by omega
          simp only [combineLines, hstep, List.filterMap_cons, hrow, ih (k + 1) hls,
            numberFrom, List.length_cons, harith]
        · exact absurd (hsp ▸ hl) (by simp)

theorem combineFiles_no_err (lss : List (List PyStr)) :
    ∀ (k : Nat), (∀ ls ∈ lss, ∀ l ∈ ls, (splitCS l).length ≤ 2) →
      combineFiles k lss
        = (numberFrom k (lss.flatten.filterMap rowOf), false) := by
  induction lss with
  | nil => intro k h; rfl
  | cons ls lss ih =>
    intro k h
    have h1 := h ls (List.mem_cons_self _ _)
    have h2 := fun x hx => h x (List.mem_cons_of_mem _ hx)
    rw [show combineFiles k (ls :: lss)
        = (let r := combineLines k ls
           if r.2.1 then (r.1, true)
           else
             let rest := combineFiles r.2.2 lss
             (r.1 ++ rest.1, rest.2)) from rfl,
      combineLines_no_err ls k h1]
    simp only [ih (k + (ls.filterMap rowOf).length) h2, List.flatten_cons,
      List.filterMap_append, numberFrom_append]
    rfl

/-! ### Claim theorems: locator and fetcher -/

/-- C1: on every attempt `k = i + 1` (1-based), the probe window fetched by
`locate_central_directory` is `[max(content_length - step * k, 0),
content_length - 1]`; the starts are non-increasing and bounded below by 0,
and at most `max_attempts` fetches are performed. -/
theorem claim_C1_probe_windows (cl step maxAttempts : Nat)
    (fetch : Int → Int → Except TransportErr Bytes) (dec : Bytes → Bool) :
    (locateRun cl step maxAttempts fetch dec).fetches.length ≤ maxAttempts ∧
    (∀ i (hi : i < (locateRun cl step maxAttempts fetch dec).fetches.length),
      (locateRun cl step maxAttempts fetch dec).fetches.get ⟨i, hi⟩
        = (max ((cl : Int) - (step : Int) * ((i : Int) + 1)) 0, (cl : Int) - 1)) ∧
    (∀ i j (hi : i < (locateRun cl step maxAttempts fetch dec).fetches.length)
      (hj : j < (locateRun cl step maxAttempts fetch dec).fetches.length), i ≤ j →
      ((locateRun cl step maxAttempts fetch dec).fetches.get ⟨j, hj⟩).1
        ≤ ((locateRun cl step maxAttempts fetch dec).fetches.get ⟨i, hi⟩).1) ∧
    (∀ i (hi : i < (locateRun cl step maxAttempts fetch dec).fetches.length),
      0 ≤ ((locateRun cl step maxAttempts fetch dec).fetches.get ⟨i, hi⟩).1) := by
  refine ⟨locateGo_fetches_len_le cl step fetch dec maxAttempts 0,
    fun i hi => ?_, fun i j hi hj hij => ?_, fun i hi => ?_⟩
  · rw [locateRun_window cl step maxAttempts fetch dec i hi]
    unfold probeStart probeEnd
    norm_num
  · rw [locateRun_window cl step maxAttempts fetch dec i hi,
      locateRun_window cl step maxAttempts fetch dec j hj]
    exact probeStart_anti cl step (by omega)
  · rw [locateRun_window cl step maxAttempts fetch dec i hi]
    exact probeStart_nonneg cl step (i + 1)

theorem claim_C1_witness :
    (locateRun 5 2 3 (fun _ _ => Except.error TransportErr.netFail)
      (fun _ => false)).fetches.length ≤ 3 ∧
    (locateRun 5 2 3 (fun _ _ => Except.error TransportErr.netFail)
      (fun _ => false)).fetches.get ⟨0, by decide⟩
        = (max ((5 : Int) - (2 : Int) * ((0 : Int) + 1)) 0, (5 : Int) - 1) ∧
    ((locateRun 5 2 3 (fun _ _ => Except.error TransportErr.netFail)
      (fun _ => false)).fetches.get ⟨1, by decide⟩).1
      ≤ ((locateRun 5 2 3 (fun _ _ => Except.error TransportErr.netFail)
        (fun _ => false)).fetches.get ⟨0, by decide⟩).1 ∧
    0 ≤ ((locateRun 5 2 3 (fun _ _ => Except.error TransportErr.netFail)
      (fun _ => false)).fetches.get ⟨0, by decide⟩).1 := by
  have h := claim_C1_probe_windows 5 2 3
    (fun _ _ => Except.error TransportErr.netFail) (fun _ => false)
  exact ⟨h.1, h.2.1 0 (by decide), h.2.2.1 0 1 (by decide) (by decide) (by omega),
    h.2.2.2 0 (by decide)⟩

/-- C10: every exception raised while fetching a probe window inside
`locate_central_directory` — a transport failure included — is caught inside
the loop; the locator's result is either a successfully decoded byte string or
the exhausted-attempts error, the latter only after all `max_attempts` windows
were tried.  A transport error is never propagated. -/
theorem claim_C10_locate_swallows_transport_errors (cl step maxAttempts : Nat)
    (fetch : Int → Int → Except TransportErr Bytes) (dec : Bytes → Bool) :
    (∃ b, (locateRun cl step maxAttempts fetch dec).res = .ok b ∧ dec b = true) ∨
    ((locateRun cl step maxAttempts fetch dec).res = .error .cdNotFound ∧
      (locateRun cl step maxAttempts fetch dec).fetches.length = maxAttempts) :=
  locateGo_res_spec cl step fetch dec maxAttempts 0

/-- C5: when the first 8192-byte sample lacks the `PK` signature, `inspect`
raises the invalid-format error having fetched only the range `0-8191`: no
locate attempt (no backward probe) is made. -/
theorem claim_C5_invalid_signature (cl : Nat)
    (fetch : Int → Int → Except TransportErr Bytes)
    (entriesOf : Bytes → Option EntryList) (initial : Bytes)
    (hfetch : fetch 0 8191 = .ok initial)
    (hsig : ([80, 75] : Bytes).isPrefixOf initial = false) :
    inspectRun 200 cl fetch entriesOf = ⟨.error .invalidFormat, [(0, 8191)], []⟩ := by
  unfold inspectRun
  rw [if_neg (by norm_num), hfetch]
  simp [hsig]

theorem claim_C5_witness :
    inspectRun 200 500000
      (fun s e => if s = 0 ∧ e = 8191 then .ok [88, 89, 90] else .error .netFail)
      (fun _ => none)
      = ⟨.error .invalidFormat, [(0, 8191)], []⟩ :=
  claim_C5_invalid_signature 500000 _ _ [88, 89, 90] (by decide) (by decide)

/-- C6 counterexample: the transport answers a 100-byte inclusive range
request (`0-99`) with a 206 status and only 3 bytes; `fetch_bytes` returns the
short payload as `ok` instead of failing with a transport error, because it
never compares the payload length with the size of the requested range. -/
theorem claim_C6_counterexample :
    fetchBytesVia (fun _ _ => ⟨206, [1, 2, 3]⟩) 0 99 = .ok [1, 2, 3] ∧
    (99 : Int) - 0 + 1 = 100 ∧ ([1, 2, 3] : Bytes).length = 3 := by
  exact ⟨rfl, by decide, by decide⟩

/-- C6 (amended): `fetch_bytes` returns exactly the transport's payload
whenever the status is 206 or 200 — even when the payload is shorter than the
requested range — and raises precisely for every other status. -/
theorem claim_C6_fetch_returns_payload_on_success_status (resp : HttpResponse) :
    (resp.status = 206 ∨ resp.status = 200 → fetchBytesResp resp = .ok resp.body) ∧
    (resp.status ≠ 206 ∧ resp.status ≠ 200 →
      fetchBytesResp resp = .error (.badStatus resp.status)) := by
  constructor
  · intro h
    simp [fetchBytesResp, h]
  · rintro ⟨h1, h2⟩
    simp [fetchBytesResp, h1, h2]

theorem claim_C6_witness :
    fetchBytesResp ⟨206, [5]⟩ = .ok [5] ∧
    fetchBytesResp ⟨404, []⟩ = .error (.badStatus 404) :=
  ⟨(claim_C6_fetch_returns_payload_on_success_status ⟨206, [5]⟩).1 (Or.inl rfl),
   (claim_C6_fetch_returns_payload_on_success_status ⟨404, []⟩).2 ⟨by decide, by decide⟩⟩

/-- C2 counterexample: a run of `inspect` in which the leading sample is
`[80, 75, 9, 9]` and the locate loop fetches `[1, 2, 3]`: the byte string
handed to the decoder during the locate attempt is `[1, 2, 3]` alone — not the
concatenation `leading_bytes + fetched_bytes` the claim describes (`ZipFile`
is applied to `central_dir_bytes` only, line 62; the concatenation happens
later, in `inspect`, line 92). -/
theorem claim_C2_counterexample :
    (inspectRun 200 10
      (fun s e => if s = 0 ∧ e = 8191 then .ok [80, 75, 9, 9] else .ok [1, 2, 3])
      (fun b => if b = [80, 75, 9, 9] then none else some [])).locDecoded
      = [[1, 2, 3]] ∧
    ([1, 2, 3] : Bytes) ≠ [80, 75, 9, 9] ++ [1, 2, 3] := by
  exact ⟨by decide, by decide⟩

/-- C2 (amended): on every locate attempt the loop decodes exactly the freshly
fetched trailing bytes (the decode trace is the fetch trace's successful
payloads, in order); if attempts `1 .. k - 1` fail and attempt `k`'s fetch
succeeds with bytes the decoder accepts, the locator returns those bytes
immediately, having performed exactly `k` fetches.  The leading bytes join the
picture only after `locate_central_directory` returns, inside `inspect`. -/
theorem claim_C2_locate_decodes_fetched_bytes
    (cl step maxAttempts : Nat) (fetch : Int → Int → Except TransportErr Bytes)
    (dec : Bytes → Bool) :
    ((locateRun cl step maxAttempts fetch dec).decoded
      = (locateRun cl step maxAttempts fetch dec).fetches.filterMap
          (fun w => (fetch w.1 w.2).toOption)) ∧
    (∀ k b, 1 ≤ k → k ≤ maxAttempts →
      (∀ j, 1 ≤ j → j < k → attemptFails cl step fetch dec j) →
      fetch (probeStart cl step k) (probeEnd cl) = .ok b → dec b = true →
      (locateRun cl step maxAttempts fetch dec).res = .ok b ∧
      (locateRun cl step maxAttempts fetch dec).fetches.length = k) := by
  constructor
  · exact locateGo_decoded_eq cl step fetch dec maxAttempts 0
  · intro k b h1 hk hfail hok hdec
    refine locateGo_first_success cl step fetch dec k maxAttempts 0 b h1 hk
      (fun j hj1 hjk => ?_) (by simpa using hok) hdec
    simpa using hfail j hj1 hjk

theorem claim_C2_witness :
    ((locateRun 5 2 3 (fun s _ => if s = 1 then .ok [7] else .error (.badStatus 500))
      (fun b => decide (b = [7]))).decoded
      = (locateRun 5 2 3 (fun s _ => if s = 1 then .ok [7] else .error (.badStatus 500))
          (fun b => decide (b = [7]))).fetches.filterMap
          (fun w => ((fun (s : Int) (_ : Int) =>
            if s = 1 then Except.ok [7] else Except.error (TransportErr.badStatus 500))
              w.1 w.2).toOption)) ∧
    (locateRun 5 2 3 (fun s _ => if s = 1 then .ok [7] else .error (.badStatus 500))
      (fun b => decide (b = [7]))).res = .ok [7] ∧
    (locateRun 5 2 3 (fun s _ => if s = 1 then .ok [7] else .error (.badStatus 500))
      (fun b => decide (b = [7]))).fetches.length = 2 := by
  have h := claim_C2_locate_decodes_fetched_bytes 5 2 3
    (fun s _ => if s = 1 then .ok [7] else .error (.badStatus 500))
    (fun b => decide (b = [7]))
  have h2 := h.2 2 [7] (by omega) (by omega)
    (fun j hj1 hjk => by
      have hj : j = 1 := by omega
      subst hj
      left
      exact ⟨.badStatus 500, by decide⟩)
    (by decide) (by decide)
  exact ⟨h.1, h2.1, h2.2⟩

/-! ### Claim theorems: report pipeline -/

/-- C3 counterexample: an entry whose name contains `": "` breaks the claim as
stated ("for every entry list"): its report line `a: b: 5 bytes` splits into
three pieces, the tuple unpacking in `combine_reports` raises `ValueError`,
the surrounding `try` aborts the merge, and the combined report ends with 0
data rows instead of N = 1. -/
theorem claim_C3_counterexample :
    combineReportsRun (generateReportParallel [("a: b".data, 5)] "text".data) "text".data
      = ([], true) ∧
    ([] : List (Nat × PyStr × PyStr)).length ≠ ([("a: b".data, 5)] : EntryList).length := by
  exact ⟨by decide, by decide⟩

/-- C3 (amended): for every entry list whose names survive the textual round
trip — no surrounding whitespace, no newline or carriage return, no `": "`
substring (see `cleanEntry`) — sharding with `generate_report_parallel` and
merging with `combine_reports` over an otherwise empty output directory
produces exactly N rows, serial numbers `1..N` contiguous, and the
(name, rendered size) rows in original entry-list order. -/
theorem claim_C3_shard_merge_roundtrip (entries : EntryList)
    (hclean : ∀ p ∈ entries, cleanEntry p) :
    combineReportsRun (generateReportParallel entries "text".data) "text".data
      = (expectedReport entries, false) ∧
    (expectedReport entries).length = entries.length ∧
    (expectedReport entries).map (fun r => r.1) = List.range' 1 entries.length ∧
    (expectedReport entries).map (fun r => r.2)
      = entries.map (fun p => (p.1, sizeBytesStr p.2)) := by
  have hfmt : '_' ∉ ("text".data : PyStr) := by decide
  refine ⟨?_, ?_, ?_, ?_⟩
  · have hfilter : (generateReportParallel entries "text".data).filter
        (fun f => isShardFile f.1 "text".data) = generateReportParallel entries "text".data := by
      refine List.filter_eq_self.mpr fun f hf => ?_
      obtain ⟨b, hb, rfl⟩ := List.mem_map.mp hf
      exact isShardFile_shardFileName b _
    have hsort : sortedShardFiles (generateReportParallel entries "text".data) "text".data
        = generateReportParallel entries "text".data := by
      rw [sortedShardFiles, hfilter]
      exact (generate_sorted entries _ hfmt).insertionSort_eq
    rw [combineReportsRun, hsort, generateReportParallel, List.map_map]
    have hcontents : ((chunkBounds entries.length).map
        ((fun f => fileLines f.2)
          ∘ (fun b => (shardFileName b "text".data, chunkContent (sliceOf entries b)))))
        = (chunkBounds entries.length).map (fun b => (sliceOf entries b).map reportLine) := by
      refine List.map_congr_left fun b hb => ?_
      show fileLines (chunkContent (sliceOf entries b)) = _
      exact fileLines_chunkContent fun p hp =>
        hclean p (List.mem_of_mem_drop (List.mem_of_mem_take hp))
    rw [hcontents,
      show (chunkBounds entries.length).map (fun b => (sliceOf entries b).map reportLine)
          = ((chunkBounds entries.length).map (fun b => sliceOf entries b)).map
              (fun es => es.map reportLine) from by rw [List.map_map]; rfl,
      combineFiles_clean _ 1 (fun es hes p hp => by
        obtain ⟨b, hb, rfl⟩ := List.mem_map.mp hes
        exact hclean p (List.mem_of_mem_drop (List.mem_of_mem_take hp))),
      chunks_flatten]
    rfl
  · rw [expectedReport, numberFrom_length, List.length_map]
  · rw [expectedReport, numberFrom_map_fst, List.length_map]
  · rw [expectedReport, numberFrom_map_snd]

theorem claim_C3_witness :
    combineReportsRun (generateReportParallel [("a".data, 5), ("b".data, 12)] "text".data)
        "text".data
      = (expectedReport [("a".data, 5), ("b".data, 12)], false) ∧
    (expectedReport [("a".data, 5), ("b".data, 12)]).length
      = ([("a".data, 5), ("b".data, 12)] : EntryList).length ∧
    (expectedReport [("a".data, 5), ("b".data, 12)]).map (fun r => r.1)
      = List.range' 1 ([("a".data, 5), ("b".data, 12)] : EntryList).length ∧
    (expectedReport [("a".data, 5), ("b".data, 12)]).map (fun r => r.2)
      = ([("a".data, 5), ("b".data, 12)] : EntryList).map
          (fun p => (p.1, sizeBytesStr p.2)) :=
  claim_C3_shard_merge_roundtrip [("a".data, 5), ("b".data, 12)] (by decide)

/-- C7: the sharder partitions the entry list into consecutive index ranges of
1000 entries (the last possibly shorter) with no gaps and no overlaps — the
shard slices concatenate back to the whole entry list, every index lies in
exactly one shard range, every range is nonempty, at most 1000 long, and full
except possibly the last — and no two shards write the same file. -/
theorem claim_C7_sharder_partitions (entries : EntryList) (fmt : PyStr)
    (hfmt : '_' ∉ fmt) :
    ((chunkBounds entries.length).map (fun b => sliceOf entries b)).flatten = entries ∧
    (∀ j, j < entries.length →
      ∃! b, b ∈ chunkBounds entries.length ∧ b.1 ≤ j ∧ j < b.2) ∧
    (∀ b ∈ chunkBounds entries.length,
      b.1 < b.2 ∧ b.2 ≤ entries.length ∧ b.2 - b.1 ≤ 1000 ∧
        (b.2 - b.1 = 1000 ∨ b.2 = entries.length)) ∧
    ((generateReportParallel entries fmt).map (fun f => f.1)).Nodup := by
  refine ⟨chunks_flatten entries, ?_, ?_, ?_⟩
  · intro j hj
    refine ⟨(1000 * (j / 1000), min (1000 * (j / 1000) + 1000) entries.length),
      ⟨?_, ?_, ?_⟩, ?_⟩
    · rw [chunkBounds]
      exact List.mem_map.mpr ⟨j / 1000, List.mem_range.mpr (by omega), rfl⟩
    · omega
    · rw [lt_min_iff]
      omega
    · rintro ⟨s, e⟩ ⟨hmem, hle, hlt⟩
      rw [chunkBounds] at hmem
      obtain ⟨i, hi, heq⟩ := List.mem_map.mp hmem
      cases heq
      rw [lt_min_iff] at hlt
      have hieq : i = j / 1000 := by omega
      rw [hieq]
  · intro b hb
    rw [chunkBounds] at hb
    obtain ⟨i, hi, rfl⟩ := List.mem_map.mp hb
    have hi' := List.mem_range.mp hi
    refine ⟨?_, ?_, ?_, ?_⟩ <;> omega
  · have hmapfst : (generateReportParallel entries fmt).map (fun f => f.1)
        = (chunkBounds entries.length).map (fun b => shardFileName b fmt) := by
      rw [generateReportParallel, List.map_map]
      rfl
    rw [hmapfst, chunkBounds, List.map_map]
    refine List.Nodup.map_on ?_ (List.nodup_range _)
    intro x hx y hy hfeq
    have hkey := congrArg sortKeyL hfeq
    simp only [Function.comp_apply] at hkey
    show x = y
    rw [sortKeyL_shardFileName _ hfmt, sortKeyL_shardFileName _ hfmt] at hkey
    omega

theorem claim_C7_witness :
    ((chunkBounds ([("a".data, 1)] : EntryList).length).map
      (fun b => sliceOf [("a".data, 1)] b)).flatten = [("a".data, 1)] ∧
    (∀ j, j < ([("a".data, 1)] : EntryList).length →
      ∃! b, b ∈ chunkBounds ([("a".data, 1)] : EntryList).length ∧ b.1 ≤ j ∧ j < b.2) ∧
    (∀ b ∈ chunkBounds ([("a".data, 1)] : EntryList).length,
      b.1 < b.2 ∧ b.2 ≤ ([("a".data, 1)] : EntryList).length ∧ b.2 - b.1 ≤ 1000 ∧
        (b.2 - b.1 = 1000 ∨ b.2 = ([("a".data, 1)] : EntryList).length)) ∧
    ((generateReportParallel [("a".data, 1)] "text".data).map (fun f => f.1)).Nodup :=
  claim_C7_sharder_partitions [("a".data, 1)] "text".data (by decide)

/-- C8 counterexample: the shard line `a: b: c` does not match the
`name: size bytes` shape; instead of being skipped it makes the tuple
unpacking raise, the `try` around the whole loop aborts the merge, and the
well-formed row `x: 1 bytes` that follows is lost — the combined report does
not contain exactly the well-formed rows. -/
theorem claim_C8_counterexample :
    combineReportsRun [("report_0-2.text".data, "a: b: c\nx: 1 bytes\n".data)] "text".data
      = ([], true) ∧
    (fileLines "a: b: c\nx: 1 bytes\n".data).filterMap rowOf
      = [("x".data, "1 bytes".data)] ∧
    ([] : List (Nat × PyStr × PyStr)) ≠ numberFrom 1 [("x".data, "1 bytes".data)] := by
  exact ⟨by decide, by decide, by decide⟩

/-- C8 (amended): a line in which the separator `": "` does not occur is
skipped and never aborts the merge; a line with exactly one separator becomes
a row whatever its shape; consequently, when no line of any shard contains two
or more separators, the merge completes without aborting and the combined
report holds exactly the one-separator rows of all shards, in read order,
numbered contiguously from 1.  (A line with two or more separators aborts the
remainder of the merge — see the counterexample.) -/
theorem claim_C8_merge_skips_separatorless_lines (files : List (PyStr × PyStr))
    (fmt : PyStr)
    (h : ∀ f ∈ files, ∀ l ∈ fileLines f.2, (splitCS l).length ≤ 2) :
    combineReportsRun files fmt
      = (numberFrom 1
          (((sortedShardFiles files fmt).map (fun f => fileLines f.2)).flatten.filterMap
            rowOf),
         false) := by
  rw [combineReportsRun]
  refine combineFiles_no_err _ 1 fun ls hls l hl => ?_
  obtain ⟨f, hf, rfl⟩ := List.mem_map.mp hls
  have hfmem : f ∈ files := by
    have h1 : f ∈ files.filter (fun f => isShardFile f.1 fmt) := by
      simpa [sortedShardFiles] using hf
    exact (List.mem_filter.mp h1).1
  exact h f hfmem l hl

theorem claim_C8_witness :
    combineReportsRun [("report_0-2.text".data, "a\nx: 1 bytes\n".data)] "text".data
      = (numberFrom 1
          (((sortedShardFiles [("report_0-2.text".data, "a\nx: 1 bytes\n".data)]
              "text".data).map (fun f => fileLines f.2)).flatten.filterMap rowOf),
         false) :=
  claim_C8_merge_skips_separatorless_lines
    [("report_0-2.text".data, "a\nx: 1 bytes\n".data)] "text".data (by decide)

/-- C9: cleanup removes exactly the files matching the shard naming convention
(name starting `report_`, ending `.{format}`): afterwards no shard-convention
file remains, every other file — the combined report `combined_report.txt` /
`combined_report.csv` written by the merge included — remains, and nothing new
appears. -/
theorem claim_C9_cleanup_removes_only_shards (dir : List PyStr) (fmt : PyStr) :
    (∀ f ∈ cleanUpReports dir fmt, isShardFile f fmt = false) ∧
    (∀ f ∈ dir, isShardFile f fmt = false → f ∈ cleanUpReports dir fmt) ∧
    (∀ f ∈ cleanUpReports dir fmt, f ∈ dir) ∧
    isShardFile "combined_report.txt".data "text".data = false ∧
    isShardFile "combined_report.csv".data "csv".data = false := by
  refine ⟨?_, ?_, ?_, by decide, by decide⟩
  · intro f hf
    have hmem := List.mem_filter.mp hf
    simpa using hmem.2
  · intro f hf hn
    exact List.mem_filter.mpr ⟨hf, by simp [hn]⟩
  · intro f hf
    exact (List.mem_filter.mp hf).1

theorem claim_C9_witness :
    (∀ f ∈ cleanUpReports ["report_0-1000.text".data, "combined_report.txt".data]
        "text".data, isShardFile f "text".data = false) ∧
    "combined_report.txt".data
      ∈ cleanUpReports ["report_0-1000.text".data, "combined_report.txt".data]
        "text".data := by
  have h := claim_C9_cleanup_removes_only_shards
    ["report_0-1000.text".data, "combined_report.txt".data] "text".data
  exact ⟨h.1, h.2.1 "combined_report.txt".data (by decide) (by decide)⟩

set_option maxHeartbeats 1000000 in
/-- C4: `combine_reports` reads shard files in ascending numeric order of the
boundary index encoded in the filename: the read order is always sorted by
that key; permuting the discovery order of the shard files (distinct keys)
leaves the order unchanged; boundaries `(0,1000), (2000,2500), (1000,2000)`
merge as `(0,1000), (1000,2000), (2000,2500)`; `report_2000-3000` is read
after `report_100-1000`; and `report_900-1000` is read before
`report_2000-3000` although it is lexicographically greater, so the order is
numeric, not lexicographic. -/
theorem claim_C4_merge_reads_numeric_order :
    (∀ (files : List (PyStr × PyStr)) (fmt : PyStr),
      List.Sorted (fun a b => sortKeyL a ≤ sortKeyL b) (mergeOrder files fmt)) ∧
    (∀ (files files' : List (PyStr × PyStr)) (fmt : PyStr), files.Perm files' →
      ((files.filter (fun f => isShardFile f.1 fmt)).map (fun f => sortKeyL f.1)).Nodup →
      mergeOrder files fmt = mergeOrder files' fmt) ∧
    mergeOrder [("report_0-1000.text".data, []), ("report_2000-2500.text".data, []),
        ("report_1000-2000.text".data, [])] "text".data
      = ["report_0-1000.text".data, "report_1000-2000.text".data,
         "report_2000-2500.text".data] ∧
    mergeOrder [("report_2000-3000.text".data, []), ("report_100-1000.text".data, [])]
        "text".data
      = ["report_100-1000.text".data, "report_2000-3000.text".data] ∧
    mergeOrder [("report_2000-3000.text".data, []), ("report_900-1000.text".data, [])]
        "text".data
      = ["report_900-1000.text".data, "report_2000-3000.text".data] ∧
    ("report_2000-3000.text".data < "report_900-1000.text".data) := by
  haveI hTot : IsTotal (PyStr × PyStr)
      (fun (a b : PyStr × PyStr) => sortKeyL a.1 ≤ sortKeyL b.1) :=
    ⟨fun a b => le_total _ _⟩
  haveI hTrans : IsTrans (PyStr × PyStr)
      (fun (a b : PyStr × PyStr) => sortKeyL a.1 ≤ sortKeyL b.1) :=
    ⟨fun a b c hab hbc => le_trans hab hbc⟩
  refine ⟨?_, ?_, by decide, by decide, by decide, by decide⟩
  · intro files fmt
    show List.Pairwise (fun a b => sortKeyL a ≤ sortKeyL b)
      ((sortedShardFiles files fmt).map (fun f => f.1))
    rw [List.pairwise_map]
    unfold sortedShardFiles
    exact List.sorted_insertionSort _ _
  · intro files files' fmt hp hN
    have hperm : List.Perm (sortedShardFiles files fmt) (sortedShardFiles files' fmt) := by
      unfold sortedShardFiles
      exact ((List.perm_insertionSort
          (fun (a b : PyStr × PyStr) => sortKeyL a.1 ≤ sortKeyL b.1) _).trans
        (hp.filter (fun f => isShardFile f.1 fmt))).trans
        (List.perm_insertionSort
          (fun (a b : PyStr × PyStr) => sortKeyL a.1 ≤ sortKeyL b.1) _).symm
    have hs₁ : (sortedShardFiles files fmt).Sorted
        (fun a b => sortKeyL a.1 ≤ sortKeyL b.1) := by
      unfold sortedShardFiles
      exact List.sorted_insertionSort _ _
    have hs₂ : (sortedShardFiles files' fmt).Sorted
        (fun a b => sortKeyL a.1 ≤ sortKeyL b.1) := by
      unfold sortedShardFiles
      exact List.sorted_insertionSort _ _
    have hnodup : ((sortedShardFiles files fmt).map
        (fun (f : PyStr × PyStr) => sortKeyL f.1)).Nodup := by
      unfold sortedShardFiles
      exact (((List.perm_insertionSort
        (fun (a b : PyStr × PyStr) => sortKeyL a.1 ≤ sortKeyL b.1) _).map
          (fun (f : PyStr × PyStr) => sortKeyL f.1)).symm).nodup hN
    unfold mergeOrder
    rw [sorted_eq_of_perm_nodupkeys (fun (f : PyStr × PyStr) => sortKeyL f.1)
      hperm hs₁ hs₂ hnodup]

theorem claim_C4_witness :
    mergeOrder [("report_0-1000.text".data, []), ("report_2000-2500.text".data, []),
        ("report_1000-2000.text".data, [])] "text".data
      = mergeOrder [("report_1000-2000.text".data, []), ("report_0-1000.text".data, []),
          ("report_2000-2500.text".data, [])] "text".data ∧
    List.Sorted (fun a b => sortKeyL a ≤ sortKeyL b)
      (mergeOrder [("report_0-1000.text".data, []), ("report_2000-2500.text".data, []),
         ("report_1000-2000.text".data, [])] "text".data) := by
  have h := claim_C4_merge_reads_numeric_order
  exact ⟨h.2.1 _ _ "text".data (by decide) (by decide), h.1 _ _⟩

end ZipNavigator
